/-
Verification of the weighted streaming histogram (weightedhistogram.go).

Shallow embedding conventions:
* Go `float64` values and counts are modelled as exact rationals (ℚ).  The
  algorithmic claims checked here are about branch structure, ordering,
  lengths and exact arithmetic identities, which the code realises with
  ordinary field arithmetic; float rounding is outside the model.
* `int` / `int64` fields are modelled as ℤ (no 64-bit wraparound; the sums
  involved stay far below 2^63 in every statement below).
* A Go runtime error (index out of range) is modelled as `Option.none`;
  operations that can hit it return `Option`.
* `Add` in the source registers `defer h.trim()` first and
  `defer h.scaleDown(i)` inside the matched branch, so at return the decay
  runs first and the trim second; `add` below composes them in that order.
-/
import Mathlib

namespace Gohistogram

/-- Go struct `bin` (histogram.go): one histogram bin. -/
structure bin where
  value : ℚ
  count : ℚ
  deriving DecidableEq

/-- Default bin used for in-range indexing via `List.getD`. -/
def bin0 : bin := ⟨0, 0⟩

/-- Go struct `WeightedHistogram`. -/
structure WeightedHistogram where
  bins    : List bin
  maxbins : ℤ
  total   : ℤ
  alpha   : ℚ
  deriving DecidableEq

/-- Go `NewWeightedHistogram(n, alpha)`. -/
def newWeightedHistogram (n : ℤ) (alpha : ℚ) : WeightedHistogram :=
  ⟨[], n, 0, alpha⟩

/-- Go `ewma(existingVal, newVal, alpha)`. -/
def ewma (existingVal newVal alpha : ℚ) : ℚ :=
  newVal * (1 - alpha) + existingVal * alpha

/-- Go `scaleDown(except)`: the for-range loop, `i` being the running index.
Every bin other than index `except` gets `count := ewma(count, 0, alpha)`. -/
def scaleDownGo (alpha : ℚ) (except i : ℕ) : List bin → List bin
  | [] => []
  | b :: rest =>
    (if i = except then b else ⟨b.value, ewma b.count 0 alpha⟩)
      :: scaleDownGo alpha except (i + 1) rest

/-- The scan loop of Go `Add(n)`: on `value == n` increment that bin's count,
on `value > n` insert `{value: n, count: 1}` before it, otherwise continue;
append `{value: n, count: 1}` when the scan falls through.  The second
component is the index passed to the deferred `scaleDown` (`none` in the
append branch, which registers no `scaleDown`). -/
def insertLoop (n : ℚ) : List bin → List bin × Option ℕ
  | [] => ([⟨n, 1⟩], none)
  | b :: rest =>
    if b.value = n then (⟨b.value, b.count + 1⟩ :: rest, some 0)
    else if n < b.value then (⟨n, 1⟩ :: b :: rest, some 0)
    else
      let p := insertLoop n rest
      (b :: p.1, p.2.map Nat.succ)

/-- Sum of the `count` fields (the accumulation loop at the top of `trim`). -/
def sumCounts (l : List bin) : ℚ := (l.map bin.count).sum

/-- Go's `int64(x)` conversion on a float: truncation toward zero. -/
def i64trunc (x : ℚ) : ℤ := if 0 ≤ x then ⌊x⌋ else ⌈x⌉

/-- The closest-pair scan inside `trim`: `prev` is `bins[i-1].value`, `best`
the running `(minDelta, minDeltaIndex)`, `i` the running index.  The Go loop
starts with `minDelta = 1e99`, skips `i = 0` and updates on strict `<`. -/
def minDeltaGo : ℚ → ℚ × ℕ → ℕ → List bin → ℚ × ℕ
  | _, best, _, [] => best
  | prev, best, i, b :: rest =>
    minDeltaGo b.value
      (if b.value - prev < best.1 then (b.value - prev, i) else best)
      (i + 1) rest

/-- Whole closest-pair scan of `trim` (initial sentinel `1e99`, index `0`). -/
def findMinDelta : List bin → ℚ × ℕ
  | [] => ((10 : ℚ) ^ 99, 0)
  | b :: rest => minDeltaGo b.value ((10 : ℚ) ^ 99, 0) 1 rest

/-- Merged bin of `trim`: summed counts; midpoint value when the combined
count is ≤ 1, mass-weighted average otherwise. -/
def mergePair (b1 b2 : bin) : bin :=
  let totalCount := b1.count + b2.count
  ⟨if totalCount ≤ 1 then (b1.value + b2.value) / 2
   else (b1.value * b1.count + b2.value * b2.count) / totalCount,
   totalCount⟩

/-- The splice `bins[0:k-1] ++ [merged] ++ bins[k+1:]` of `trim`, written as
structural recursion on the index; `trim` only calls it with `1 ≤ k` and
`k < length` (the scan only ever stores such indices). -/
def mergeAt : ℕ → List bin → List bin
  | 1, b1 :: b2 :: rest => mergePair b1 b2 :: rest
  | Nat.succ (Nat.succ k), b :: rest => b :: mergeAt (Nat.succ k) rest
  | _, l => l

/-- One iteration of the merge loop in `trim`.  When every gap is ≥ the
`1e99` sentinel (or there is no pair at all) `minDeltaIndex` stays `0` and
the source indexes `bins[minDeltaIndex-1] = bins[-1]`: an index-out-of-range
runtime error, modelled as `none`. -/
def mergeStep (l : List bin) : Option (List bin) :=
  let k := (findMinDelta l).2
  if k = 0 then none else some (mergeAt k l)

/-- The `for len(h.bins) > h.maxbins` loop of `trim`.  Fuel is exact: each
successful `mergeStep` shortens the list by exactly one, so running with
fuel = initial length reproduces the loop (including the runtime-error case
as `none`); the fuel-0 base can only be reached with an empty list. -/
def trimLoopF (maxbins : ℤ) : ℕ → List bin → Option (List bin)
  | 0, l => if (l.length : ℤ) ≤ maxbins then some l else none
  | Nat.succ fuel, l =>
    if (l.length : ℤ) ≤ maxbins then some l
    else (mergeStep l).bind (trimLoopF maxbins fuel)

/-- Go `trim()`: recompute `total` from the current bins (truncated to an
integer), then merge closest pairs while over budget. -/
def trim (h : WeightedHistogram) : Option WeightedHistogram :=
  let t := i64trunc (sumCounts h.bins)
  (trimLoopF h.maxbins h.bins.length h.bins).map
    (fun l => ⟨l, h.maxbins, t, h.alpha⟩)

/-- Bin list of `Add(n)` at the moment the deferred `trim` runs: the scan's
result, decayed by the deferred `scaleDown(i)` when one was registered. -/
def preTrimBins (h : WeightedHistogram) (n : ℚ) : List bin :=
  let p := insertLoop n h.bins
  match p.2 with
  | some i => scaleDownGo h.alpha i 0 p.1
  | none => p.1

/-- Go `Add(n)` (insert, deferred decay, deferred trim — in that order). -/
def add (h : WeightedHistogram) (n : ℚ) : Option WeightedHistogram :=
  trim ⟨preTrimBins h n, h.maxbins, h.total, h.alpha⟩

/-- A whole sequence of `Add` calls; `none` as soon as one hits the runtime
error. -/
def addList : WeightedHistogram → List ℚ → Option WeightedHistogram
  | h, [] => some h
  | h, n :: rest => (add h n).bind (fun h2 => addList h2 rest)

/-- The scan loop of Go `Quantile`: running target `c`, return the first
value where it drops to ≤ 0, `-1` when the loop falls through. -/
def quantLoop : ℚ → List bin → ℚ
  | _, [] => -1
  | c, b :: rest =>
    let c2 := c - b.count
    if c2 ≤ 0 then b.value else quantLoop c2 rest

/-- Go `Quantile(q)`. -/
def Quantile (h : WeightedHistogram) (q : ℚ) : ℚ :=
  quantLoop (q * (h.total : ℚ)) h.bins

/-- Go `CDF(x)`.  (In ℚ, division by zero yields 0 where Go floats give
NaN; no claim below depends on the `total == 0` quotient.) -/
def CDF (h : WeightedHistogram) (x : ℚ) : ℚ :=
  (sumCounts (h.bins.filter (fun b => b.value ≤ x))) / (h.total : ℚ)

/-- Go `Mean()`. -/
def Mean (h : WeightedHistogram) : ℚ :=
  if h.total = 0 then 0
  else (h.bins.map (fun b => b.value * b.count)).sum / (h.total : ℚ)

/-- Go `Variance()`. -/
def Variance (h : WeightedHistogram) : ℚ :=
  if h.total = 0 then 0
  else
    let m := Mean h
    (h.bins.map (fun b => b.count * (b.value - m) * (b.value - m))).sum
      / (h.total : ℚ)

/-- Ordered insertion by descending count (ties keep the earlier element
first): deterministic stand-in for `sort.Slice` with the source's
`tmp[i].count >= tmp[j].count` comparator, whose order on ties Go leaves
unspecified. -/
def insertDesc (b : bin) : List bin → List bin
  | [] => [b]
  | c :: rest =>
    if c.count ≤ b.count then b :: c :: rest else c :: insertDesc b rest

/-- Sort a copy of the bins by descending count (the `tmp` slice of
`Modes`). -/
def sortByCountDesc : List bin → List bin
  | [] => []
  | b :: rest => insertDesc b (sortByCountDesc rest)

/-- Go `Modes(n)`: empty when `total == 0`; otherwise copy the bins, sort
the copy by descending count, return the first `min(n, len)` values. -/
def Modes (h : WeightedHistogram) (n : ℤ) : List ℚ :=
  if h.total = 0 then []
  else ((sortByCountDesc h.bins).take n.toNat).map bin.value

/-- Go `Count()`. -/
def Count (h : WeightedHistogram) : ℤ := h.total

/-- Go `BinsCount()`. -/
def BinsCount (h : WeightedHistogram) : ℤ := (h.bins.length : ℤ)

/-- Go `Bins(i)`: `(count, value)` of bin `i`, the zero pair out of range. -/
def Bins (h : WeightedHistogram) (i : ℤ) : ℚ × ℚ :=
  if i < 0 ∨ (h.bins.length : ℤ) ≤ i then (0, 0)
  else ((h.bins.getD i.toNat bin0).count, (h.bins.getD i.toNat bin0).value)

/-- Go `Alpha()`. -/
def Alpha (h : WeightedHistogram) : ℚ := h.alpha

/-- Sortedness invariant of the bin store: values strictly increase. -/
abbrev SortedBins (l : List bin) : Prop :=
  List.Pairwise (fun a b => a.value < b.value) l

/-- Positivity invariant of the bin store: every count is positive. -/
abbrev PosCounts (l : List bin) : Prop := ∀ b ∈ l, 0 < b.count

/-- All bin values lie in the closed interval `[lo, hi]`. -/
abbrev RangeVals (lo hi : ℚ) (l : List bin) : Prop :=
  ∀ b ∈ l, lo ≤ b.value ∧ b.value ≤ hi

/-- Smallest element of a sample list (first element seeds the fold). -/
def listMin : List ℚ → ℚ
  | [] => 0
  | x :: xs => xs.foldl min x

/-- Largest element of a sample list (first element seeds the fold). -/
def listMax : List ℚ → ℚ
  | [] => 0
  | x :: xs => xs.foldl max x

/-- Cumulative count of the first `k` bins (used to phrase the quantile
scan the way the spec words it). -/
def partialCount (l : List bin) (k : ℕ) : ℚ := sumCounts (l.take k)

/-- The spec's description of the quantile scan, stated over cumulative
counts: the result is the value of the first bin at which the running target
`t - partialCount` has dropped to ≤ 0, and `-1` when no bin achieves that. -/
abbrev QuantileRet (t : ℚ) (l : List bin) (r : ℚ) : Prop :=
  (∃ i, i < l.length ∧ (∀ j, j < i → 0 < t - partialCount l (j + 1)) ∧
    t - partialCount l (i + 1) ≤ 0 ∧ r = (l.getD i bin0).value) ∨
  ((∀ i, i < l.length → 0 < t - partialCount l (i + 1)) ∧ r = -1)

/-- Go struct `histogramStateBin` (the serialized form of a bin). -/
structure histogramStateBin where
  Value : ℚ
  Count : ℚ
  deriving DecidableEq

/-- Go struct `histogramState` (the serialized form of a histogram). -/
structure histogramState where
  Bins : List histogramStateBin
  MaxBins : ℤ
  Total : ℤ
  Alpha : ℚ
  deriving DecidableEq

/-- Go `UnmarshalJSON`.  `json.Unmarshal` is standard-library code outside
this repository, so it is abstracted by its outcome `decoded` (`none` for a
decode error on malformed data).  The method decodes into a local variable
and returns the error before touching any receiver field; on success it
overwrites every field from the decoded state.  The `Bool` is `true` when a
non-nil error is returned. -/
def unmarshalJSON (h : WeightedHistogram) (decoded : Option histogramState) :
    Bool × WeightedHistogram :=
  match decoded with
  | none => (true, h)
  | some hs =>
    (false,
      ⟨hs.Bins.map (fun v => ⟨v.Value, v.Count⟩), hs.MaxBins, hs.Total, hs.Alpha⟩)

/-- Stateful view of `Quantile`: result plus the receiver as the method
leaves it (the body assigns to no receiver field). -/
def QuantileS (h : WeightedHistogram) (q : ℚ) : ℚ × WeightedHistogram :=
  (Quantile h q, h)

/-- Stateful view of `CDF`. -/
def CDFS (h : WeightedHistogram) (x : ℚ) : ℚ × WeightedHistogram := (CDF h x, h)

/-- Stateful view of `Mean`. -/
def MeanS (h : WeightedHistogram) : ℚ × WeightedHistogram := (Mean h, h)

/-- Stateful view of `Variance`. -/
def VarianceS (h : WeightedHistogram) : ℚ × WeightedHistogram := (Variance h, h)

/-- Stateful view of `Modes`: the sort runs on the copy `tmp`, built by
appending `h.bins` to a fresh empty slice, so the receiver is unchanged. -/
def ModesS (h : WeightedHistogram) (n : ℤ) : List ℚ × WeightedHistogram :=
  (Modes h n, h)

/-- Stateful view of `Count`. -/
def CountS (h : WeightedHistogram) : ℤ × WeightedHistogram := (Count h, h)

/-- Stateful view of `BinsCount`. -/
def BinsCountS (h : WeightedHistogram) : ℤ × WeightedHistogram :=
  (BinsCount h, h)

/-- Stateful view of `Bins`. -/
def BinsS (h : WeightedHistogram) (i : ℤ) : (ℚ × ℚ) × WeightedHistogram :=
  (Bins h i, h)

theorem sumCounts_nil : sumCounts [] = 0 := rfl

theorem sumCounts_cons (b : bin) (l : List bin) :
    sumCounts (b :: l) = b.count + sumCounts l := by
  simp [sumCounts]

theorem sumCounts_nonneg {l : List bin} (hl : PosCounts l) :
    0 ≤ sumCounts l := by
  induction l with
  | nil => simp [sumCounts]
  | cons b rest ih =>
    have hb : 0 < b.count := hl b (by simp)
    have hr : 0 ≤ sumCounts rest :=
      ih (fun x hx => hl x (List.mem_cons_of_mem _ hx))
    rw [sumCounts_cons]; linarith

theorem scaleDownGo_length (a : ℚ) (e : ℕ) :
    ∀ (i : ℕ) (l : List bin), (scaleDownGo a e i l).length = l.length
  | _, [] => rfl
  | i, b :: rest => by
    simp [scaleDownGo, scaleDownGo_length a e (i + 1) rest]

theorem scaleDownGo_map_value (a : ℚ) (e : ℕ) :
    ∀ (i : ℕ) (l : List bin),
      (scaleDownGo a e i l).map bin.value = l.map bin.value
  | _, [] => rfl
  | i, b :: rest => by
    have ih := scaleDownGo_map_value a e (i + 1) rest
    rw [scaleDownGo]
    rcases eq_or_ne i e with hb | hb
    · subst hb; simp [ih]
    · simp [hb, ih]

theorem scaleDownGo_mem (a : ℚ) (e : ℕ) :
    ∀ (i : ℕ) (l : List bin) (x : bin), x ∈ scaleDownGo a e i l →
      ∃ y ∈ l, x.value = y.value ∧
        (x.count = y.count ∨ x.count = ewma y.count 0 a)
  | i, b :: rest, x, hx => by
    rw [scaleDownGo] at hx
    rcases List.mem_cons.mp hx with h | h
    · by_cases hb : i = e
      · exact ⟨b, by simp, by subst h; simp [hb]⟩
      · refine ⟨b, by simp, ?_⟩
        subst h; simp [hb]
    · obtain ⟨y, hy, hv⟩ := scaleDownGo_mem a e (i + 1) rest x h
      exact ⟨y, List.mem_cons_of_mem _ hy, hv⟩

theorem scaleDownGo_getD (a : ℚ) (e : ℕ) :
    ∀ (i j : ℕ) (l : List bin), j < l.length →
      (scaleDownGo a e i l).getD j bin0 =
        (if i + j = e then l.getD j bin0
         else ⟨(l.getD j bin0).value, ewma (l.getD j bin0).count 0 a⟩)
  | i, 0, b :: rest, _ => by
    rw [scaleDownGo]
    rcases eq_or_ne i e with hb | hb
    · subst hb; simp
    · simp [hb]
  | i, j + 1, b :: rest, hj => by
    have hr := scaleDownGo_getD a e (i + 1) j rest
      (by simpa using Nat.lt_of_succ_lt_succ hj)
    rw [scaleDownGo]
    rcases eq_or_ne (i + (j + 1)) e with hb | hb
    · subst hb
      have hi : ¬ i = i + (j + 1) := by omega
      have hr2 : i + 1 + j = i + (j + 1) := by omega
      simp only [List.getD_cons_succ, if_neg hi, hr, hr2, if_pos rfl]
    · have hr2 : ¬ i + 1 + j = e := by omega
      rcases eq_or_ne i e with hi | hi
      · subst hi
        simp only [List.getD_cons_succ, if_pos rfl, hr, if_neg hr2, if_neg hb]
      · simp only [List.getD_cons_succ, if_neg hi, hr, if_neg hr2, if_neg hb]

theorem scaleDownGo_alpha_one (e : ℕ) :
    ∀ (i : ℕ) (l : List bin), scaleDownGo 1 e i l = l
  | _, [] => rfl
  | i, b :: rest => by
    have hb : (⟨b.value, ewma b.count 0 1⟩ : bin) = b := by
      simp [ewma]
    have ih := scaleDownGo_alpha_one e (i + 1) rest
    rw [scaleDownGo]
    rcases eq_or_ne i e with h | h
    · subst h; simp [ih]
    · simp [h, hb, ih]

theorem scaleDownGo_pos {a : ℚ} (ha : 0 < a) (e : ℕ) :
    ∀ (i : ℕ) (l : List bin), PosCounts l → PosCounts (scaleDownGo a e i l) := by
  intro i l hl x hx
  obtain ⟨y, hy, _, hc⟩ := scaleDownGo_mem a e i l x hx
  have hyp : 0 < y.count := hl y hy
  rcases hc with hc | hc
  · rw [hc]; exact hyp
  · rw [hc]; simp only [ewma]
    have : 0 < y.count * a := mul_pos hyp ha
    linarith

theorem scaleDownGo_sum_ge {a : ℚ} (ha : 0 < a) (e : ℕ) :
    ∀ (i k : ℕ) (l : List bin), e = i + k → k < l.length → PosCounts l →
      (l.getD k bin0).count ≤ sumCounts (scaleDownGo a e i l)
  | i, 0, b :: rest, he, _, hl => by
    have hrest : PosCounts rest := fun x hx => hl x (List.mem_cons_of_mem _ hx)
    have hsum : 0 ≤ sumCounts (scaleDownGo a e (i + 1) rest) :=
      sumCounts_nonneg (scaleDownGo_pos ha e (i + 1) rest hrest)
    have hie : i = e := by omega
    subst hie
    rw [scaleDownGo, if_pos rfl, sumCounts_cons, List.getD_cons_zero]
    linarith
  | i, k + 1, b :: rest, he, hk, hl => by
    have hrest : PosCounts rest := fun x hx => hl x (List.mem_cons_of_mem _ hx)
    have hrec := scaleDownGo_sum_ge ha e (i + 1) k rest (by omega)
      (by simpa using Nat.lt_of_succ_lt_succ hk) hrest
    have hie : ¬ i = e := by omega
    have hb : 0 < b.count := hl b (by simp)
    have hewma : 0 < ewma b.count 0 a := by
      simp only [ewma]
      have : 0 < b.count * a := mul_pos hb ha
      linarith
    rw [scaleDownGo, if_neg hie, sumCounts_cons, List.getD_cons_succ]
    simp only
    linarith

theorem insertLoop_none_iff (n : ℚ) :
    ∀ l : List bin, (insertLoop n l).2 = none ↔ ∀ b ∈ l, b.value < n
  | [] => by simp [insertLoop]
  | b :: rest => by
    have ih := insertLoop_none_iff n rest
    rw [insertLoop]
    rcases eq_or_ne b.value n with hv | hv
    · simp [hv]
    · rcases lt_or_gt_of_ne hv with hlt | hgt
      · have hn : ¬ n < b.value := not_lt.mpr (le_of_lt hlt)
        simp [hv, hn, ih, hlt]
      · simp [hv, hgt, not_lt.mpr (le_of_lt hgt)]

theorem insertLoop_none_eq (n : ℚ) :
    ∀ l : List bin, (insertLoop n l).2 = none →
      (insertLoop n l).1 = l ++ [⟨n, 1⟩]
  | [], _ => rfl
  | b :: rest, h => by
    rw [insertLoop] at h ⊢
    rcases eq_or_ne b.value n with hv | hv
    · simp [hv] at h
    · rcases lt_or_gt_of_ne hv with hlt | hgt
      · have hn : ¬ n < b.value := not_lt.mpr (le_of_lt hlt)
        simp only [if_neg hv, if_neg hn] at h ⊢
        have h2 : (insertLoop n rest).2 = none := by
          simpa using h
        simp [insertLoop_none_eq n rest h2]
      · simp [hv, hgt] at h

theorem insertLoop_sum (n : ℚ) :
    ∀ l : List bin, sumCounts (insertLoop n l).1 = sumCounts l + 1
  | [] => by simp [insertLoop, sumCounts]
  | b :: rest => by
    have ih := insertLoop_sum n rest
    rw [insertLoop]
    rcases eq_or_ne b.value n with hv | hv
    · simp only [if_pos hv, sumCounts_cons]; ring
    · rcases lt_or_gt_of_ne hv with hlt | hgt
      · have hn : ¬ n < b.value := not_lt.mpr (le_of_lt hlt)
        simp only [if_neg hv, if_neg hn, sumCounts_cons, ih]; ring
      · simp only [if_neg hv, if_pos hgt, sumCounts_cons]; ring

theorem insertLoop_pos (n : ℚ) :
    ∀ l : List bin, PosCounts l → PosCounts (insertLoop n l).1
  | [], _ => by
    intro x hx
    simp only [insertLoop, List.mem_singleton] at hx
    simp [hx]
  | b :: rest, hl => by
    have hb : 0 < b.count := hl b (by simp)
    have hrest : PosCounts rest := fun x hx => hl x (List.mem_cons_of_mem _ hx)
    have ih := insertLoop_pos n rest hrest
    rw [insertLoop]
    rcases eq_or_ne b.value n with hv | hv
    · intro x hx
      simp only [if_pos hv, List.mem_cons] at hx
      rcases hx with hx | hx
      · subst hx; simp only; linarith
      · exact hl x (List.mem_cons_of_mem _ hx)
    · rcases lt_or_gt_of_ne hv with hlt | hgt
      · have hn : ¬ n < b.value := not_lt.mpr (le_of_lt hlt)
        intro x hx
        simp only [if_neg hv, if_neg hn, List.mem_cons] at hx
        rcases hx with hx | hx
        · subst hx; exact hb
        · exact ih x hx
      · intro x hx
        simp only [if_neg hv, if_pos hgt, List.mem_cons] at hx
        rcases hx with hx | hx | hx
        · subst hx; norm_num
        · subst hx; exact hb
        · exact hrest x hx

theorem insertLoop_mem_value (n : ℚ) (l : List bin) :
    ∀ x ∈ (insertLoop n l).1, x.value = n ∨ ∃ y ∈ l, x.value = y.value := by
  induction l with
  | nil =>
    intro x hx
    simp only [insertLoop, List.mem_singleton] at hx
    subst hx; left; rfl
  | cons b rest ih =>
    intro x hx
    simp only [insertLoop] at hx
    rcases eq_or_ne b.value n with hv | hv
    · simp only [if_pos hv, List.mem_cons] at hx
      rcases hx with hx | hx
      · subst hx; right; exact ⟨b, by simp, rfl⟩
      · right; exact ⟨x, List.mem_cons_of_mem _ hx, rfl⟩
    · rcases lt_or_gt_of_ne hv with hlt | hgt
      · have hn : ¬ n < b.value := not_lt.mpr (le_of_lt hlt)
        simp only [if_neg hv, if_neg hn, List.mem_cons] at hx
        rcases hx with hx | hx
        · right; exact ⟨b, by simp, by rw [hx]⟩
        · rcases ih x hx with h | ⟨y, hy, hxy⟩
          · left; exact h
          · right; exact ⟨y, List.mem_cons_of_mem _ hy, hxy⟩
      · simp only [if_neg hv, if_pos hgt, List.mem_cons] at hx
        rcases hx with hx | hx | hx
        · left; rw [hx]
        · right; exact ⟨b, by simp, by rw [hx]⟩
        · right; exact ⟨x, List.mem_cons_of_mem _ hx, rfl⟩

theorem insertLoop_lb (n p : ℚ) :
    ∀ l : List bin, (∀ b ∈ l, p < b.value) → p < n →
      ∀ x ∈ (insertLoop n l).1, p < x.value := by
  intro l hl hn x hx
  rcases insertLoop_mem_value n l x hx with h | ⟨y, hy, hxy⟩
  · rw [h]; exact hn
  · rw [hxy]; exact hl y hy

theorem insertLoop_sorted (n : ℚ) :
    ∀ l : List bin, SortedBins l → SortedBins (insertLoop n l).1
  | [], _ => by simp [insertLoop]
  | b :: rest, hs => by
    obtain ⟨hb, hrest⟩ := List.pairwise_cons.mp hs
    have ih := insertLoop_sorted n rest hrest
    rw [insertLoop]
    rcases eq_or_ne b.value n with hv | hv
    · rw [if_pos hv]
      exact List.pairwise_cons.mpr ⟨hb, hrest⟩
    · rcases lt_or_gt_of_ne hv with hlt | hgt
      · have hn : ¬ n < b.value := not_lt.mpr (le_of_lt hlt)
        rw [if_neg hv, if_neg hn]
        exact List.pairwise_cons.mpr ⟨insertLoop_lb n b.value rest hb hlt, ih⟩
      · rw [if_neg hv, if_pos hgt]
        refine List.pairwise_cons.mpr ⟨?_, List.pairwise_cons.mpr ⟨hb, hrest⟩⟩
        intro x hx
        rcases List.mem_cons.mp hx with hx | hx
        · subst hx; exact hgt
        · exact lt_trans hgt (hb x hx)

theorem insertLoop_range (n lo hi : ℚ) (hlo : lo ≤ n) (hhi : n ≤ hi) :
    ∀ l : List bin, RangeVals lo hi l → RangeVals lo hi (insertLoop n l).1 := by
  intro l hl x hx
  rcases insertLoop_mem_value n l x hx with h | ⟨y, hy, hxy⟩
  · rw [h]; exact ⟨hlo, hhi⟩
  · rw [hxy]; exact hl y hy

theorem insertLoop_touched (n : ℚ) :
    ∀ l : List bin, PosCounts l → ∀ i, (insertLoop n l).2 = some i →
      i < (insertLoop n l).1.length ∧ 1 ≤ ((insertLoop n l).1.getD i bin0).count
  | [], _, i, h => by simp [insertLoop] at h
  | b :: rest, hl, i, h => by
    have hb : 0 < b.count := hl b (by simp)
    have hrest : PosCounts rest := fun x hx => hl x (List.mem_cons_of_mem _ hx)
    simp only [insertLoop] at h ⊢
    rcases eq_or_ne b.value n with hv | hv
    · rw [if_pos hv] at h ⊢
      have hi : i = 0 := by simpa using h.symm
      subst hi
      constructor
      · simp
      · rw [List.getD_cons_zero]; simp only; linarith
    · rcases lt_or_gt_of_ne hv with hlt | hgt
      · have hn : ¬ n < b.value := not_lt.mpr (le_of_lt hlt)
        rw [if_neg hv, if_neg hn] at h ⊢
        cases hp : (insertLoop n rest).2 with
        | none => rw [hp] at h; simp at h
        | some j =>
          rw [hp] at h
          obtain ⟨hjl, hjc⟩ := insertLoop_touched n rest hrest j hp
          have hij : i = j + 1 := by
            have := h.symm
            simpa using this
          subst hij
          constructor
          · simpa using Nat.succ_lt_succ hjl
          · rw [List.getD_cons_succ]; exact hjc
      · rw [if_neg hv, if_pos hgt] at h ⊢
        have hi : i = 0 := by simpa using h.symm
        subst hi
        exact ⟨by simp, by norm_num⟩

theorem mergePair_count (b1 b2 : bin) :
    (mergePair b1 b2).count = b1.count + b2.count := rfl

theorem mergePair_value (b1 b2 : bin) :
    (mergePair b1 b2).value =
      if b1.count + b2.count ≤ 1 then (b1.value + b2.value) / 2
      else (b1.value * b1.count + b2.value * b2.count) / (b1.count + b2.count) :=
  rfl

theorem mergePair_bounds {b1 b2 : bin} (hv : b1.value < b2.value)
    (h1 : 0 < b1.count) (h2 : 0 < b2.count) :
    b1.value < (mergePair b1 b2).value ∧ (mergePair b1 b2).value < b2.value := by
  have hc : 0 < b1.count + b2.count := by linarith
  constructor
  · rw [mergePair_value]
    split
    · linarith
    · rw [lt_div_iff₀ hc]
      nlinarith [mul_pos (sub_pos.mpr hv) h2]
  · rw [mergePair_value]
    split
    · linarith
    · rw [div_lt_iff₀ hc]
      nlinarith [mul_pos (sub_pos.mpr hv) h1]

theorem mergeAt_one (b1 b2 : bin) (rest : List bin) :
    mergeAt 1 (b1 :: b2 :: rest) = mergePair b1 b2 :: rest := rfl

theorem mergeAt_step (k : ℕ) (b : bin) (rest : List bin) :
    mergeAt (k + 2) (b :: rest) = b :: mergeAt (k + 1) rest := rfl

theorem mergeAt_length :
    ∀ (k : ℕ) (l : List bin), 1 ≤ k → k < l.length →
      (mergeAt k l).length + 1 = l.length
  | 1, _ :: _ :: _, _, _ => by simp [mergeAt_one]
  | k + 2, b :: rest, _, hk => by
    have ih := mergeAt_length (k + 1) rest (by omega)
      (by simpa using Nat.lt_of_succ_lt_succ hk)
    rw [mergeAt_step]
    simp only [List.length_cons]
    omega
  | 0, _, h1, _ => absurd h1 (by omega)
  | 1, [], _, hk => absurd hk (by simp)
  | k + 2, [], _, hk => absurd hk (by simp)

theorem mergeAt_sum :
    ∀ (k : ℕ) (l : List bin), 1 ≤ k → k < l.length →
      sumCounts (mergeAt k l) = sumCounts l
  | 1, b1 :: b2 :: rest, _, _ => by
    rw [mergeAt_one]
    simp only [sumCounts_cons, mergePair_count]
    ring
  | k + 2, b :: rest, _, hk => by
    have ih := mergeAt_sum (k + 1) rest (by omega)
      (by simpa using Nat.lt_of_succ_lt_succ hk)
    rw [mergeAt_step]
    simp only [sumCounts_cons, ih]
  | 0, _, h1, _ => absurd h1 (by omega)
  | 1, [], _, hk => absurd hk (by simp)
  | k + 2, [], _, hk => absurd hk (by simp)

theorem mergeAt_pos :
    ∀ (k : ℕ) (l : List bin), 1 ≤ k → k < l.length → PosCounts l →
      PosCounts (mergeAt k l)
  | 1, b1 :: b2 :: rest, _, _, hp => by
    intro x hx
    rw [mergeAt_one] at hx
    rcases List.mem_cons.mp hx with hx | hx
    · have h1 : 0 < b1.count := hp b1 (by simp)
      have h2 : 0 < b2.count := hp b2 (by simp)
      rw [hx, mergePair_count]; linarith
    · exact hp x (List.mem_cons_of_mem _ (List.mem_cons_of_mem _ hx))
  | k + 2, b :: rest, _, hk, hp => by
    have ih := mergeAt_pos (k + 1) rest (by omega)
      (by simpa using Nat.lt_of_succ_lt_succ hk)
      (fun x hx => hp x (List.mem_cons_of_mem _ hx))
    intro x hx
    rw [mergeAt_step] at hx
    rcases List.mem_cons.mp hx with hx | hx
    · rw [hx]; exact hp b (by simp)
    · exact ih x hx
  | 0, _, h1, _, _ => absurd h1 (by omega)
  | 1, [], _, hk, _ => absurd hk (by simp)
  | k + 2, [], _, hk, _ => absurd hk (by simp)

theorem mergeAt_lb (p : ℚ) :
    ∀ (k : ℕ) (l : List bin), 1 ≤ k → k < l.length → SortedBins l →
      PosCounts l → (∀ x ∈ l, p < x.value) →
      ∀ x ∈ mergeAt k l, p < x.value
  | 1, b1 :: b2 :: rest, _, _, hs, hp, hb => by
    intro x hx
    rw [mergeAt_one] at hx
    rcases List.mem_cons.mp hx with hx | hx
    · have h12 : b1.value < b2.value :=
        (List.pairwise_cons.mp hs).1 b2 (by simp)
      have h1 : 0 < b1.count := hp b1 (by simp)
      have h2 : 0 < b2.count := hp b2 (by simp)
      have hm := (mergePair_bounds h12 h1 h2).1
      have hpb := hb b1 (by simp)
      rw [hx]; linarith
    · exact hb x (List.mem_cons_of_mem _ (List.mem_cons_of_mem _ hx))
  | k + 2, b :: rest, _, hk, hs, hp, hb => by
    have ih := mergeAt_lb p (k + 1) rest (by omega)
      (by simpa using Nat.lt_of_succ_lt_succ hk)
      (List.pairwise_cons.mp hs).2
      (fun x hx => hp x (List.mem_cons_of_mem _ hx))
      (fun x hx => hb x (List.mem_cons_of_mem _ hx))
    intro x hx
    rw [mergeAt_step] at hx
    rcases List.mem_cons.mp hx with hx | hx
    · rw [hx]; exact hb b (by simp)
    · exact ih x hx
  | 0, _, h1, _, _, _, _ => absurd h1 (by omega)
  | 1, [], _, hk, _, _, _ => absurd hk (by simp)
  | k + 2, [], _, hk, _, _, _ => absurd hk (by simp)

theorem mergeAt_sorted :
    ∀ (k : ℕ) (l : List bin), 1 ≤ k → k < l.length → SortedBins l →
      PosCounts l → SortedBins (mergeAt k l)
  | 1, b1 :: b2 :: rest, _, _, hs, hp => by
    obtain ⟨hb1, hs2⟩ := List.pairwise_cons.mp hs
    obtain ⟨hb2, hsrest⟩ := List.pairwise_cons.mp hs2
    have h12 : b1.value < b2.value := hb1 b2 (by simp)
    have h1 : 0 < b1.count := hp b1 (by simp)
    have h2 : 0 < b2.count := hp b2 (by simp)
    have hm := mergePair_bounds h12 h1 h2
    rw [mergeAt_one]
    refine List.pairwise_cons.mpr ⟨?_, hsrest⟩
    intro x hx
    exact lt_trans hm.2 (hb2 x hx)
  | k + 2, b :: rest, _, hk, hs, hp => by
    obtain ⟨hb, hsrest⟩ := List.pairwise_cons.mp hs
    have hklt : k + 1 < rest.length := by simpa using Nat.lt_of_succ_lt_succ hk
    have hprest : PosCounts rest := fun x hx => hp x (List.mem_cons_of_mem _ hx)
    have ih := mergeAt_sorted (k + 1) rest (by omega) hklt hsrest hprest
    rw [mergeAt_step]
    refine List.pairwise_cons.mpr ⟨?_, ih⟩
    exact mergeAt_lb b.value (k + 1) rest (by omega) hklt hsrest hprest hb
  | 0, _, h1, _, _, _ => absurd h1 (by omega)
  | 1, [], _, hk, _, _ => absurd hk (by simp)
  | k + 2, [], _, hk, _, _ => absurd hk (by simp)

theorem mergeAt_range (lo hi : ℚ) :
    ∀ (k : ℕ) (l : List bin), 1 ≤ k → k < l.length → SortedBins l →
      PosCounts l → RangeVals lo hi l → RangeVals lo hi (mergeAt k l)
  | 1, b1 :: b2 :: rest, _, _, hs, hp, hr => by
    have h12 : b1.value < b2.value :=
      (List.pairwise_cons.mp hs).1 b2 (by simp)
    have h1 : 0 < b1.count := hp b1 (by simp)
    have h2 : 0 < b2.count := hp b2 (by simp)
    have hm := mergePair_bounds h12 h1 h2
    have hr1 := hr b1 (by simp)
    have hr2 := hr b2 (by simp)
    intro x hx
    rw [mergeAt_one] at hx
    rcases List.mem_cons.mp hx with hx | hx
    · rw [hx]
      constructor
      · linarith [hm.1]
      · linarith [hm.2]
    · exact hr x (List.mem_cons_of_mem _ (List.mem_cons_of_mem _ hx))
  | k + 2, b :: rest, _, hk, hs, hp, hr => by
    have hklt : k + 1 < rest.length := by simpa using Nat.lt_of_succ_lt_succ hk
    have ih := mergeAt_range lo hi (k + 1) rest (by omega) hklt
      (List.pairwise_cons.mp hs).2
      (fun x hx => hp x (List.mem_cons_of_mem _ hx))
      (fun x hx => hr x (List.mem_cons_of_mem _ hx))
    intro x hx
    rw [mergeAt_step] at hx
    rcases List.mem_cons.mp hx with hx | hx
    · rw [hx]; exact hr b (by simp)
    · exact ih x hx
  | 0, _, h1, _, _, _, _ => absurd h1 (by omega)
  | 1, [], _, hk, _, _, _ => absurd hk (by simp)
  | k + 2, [], _, hk, _, _, _ => absurd hk (by simp)

theorem minDeltaGo_idx :
    ∀ (prev : ℚ) (best : ℚ × ℕ) (i : ℕ) (l : List bin),
      (minDeltaGo prev best i l).2 = best.2 ∨
        (i ≤ (minDeltaGo prev best i l).2 ∧
          (minDeltaGo prev best i l).2 < i + l.length)
  | _, _, _, [] => Or.inl rfl
  | prev, best, i, b :: rest => by
    rw [minDeltaGo]
    by_cases hc : b.value - prev < best.1
    · rw [if_pos hc]
      rcases minDeltaGo_idx b.value (b.value - prev, i) (i + 1) rest with h | h
      · right
        have h2 : (minDeltaGo b.value (b.value - prev, i) (i + 1) rest).2 = i := h
        rw [h2]
        simp only [List.length_cons]
        omega
      · right
        simp only [List.length_cons]
        omega
    · rw [if_neg hc]
      rcases minDeltaGo_idx b.value best (i + 1) rest with h | h
      · left
        exact h
      · right
        simp only [List.length_cons]
        omega

theorem findMinDelta_idx (l : List bin) :
    (findMinDelta l).2 = 0 ∨
      (1 ≤ (findMinDelta l).2 ∧ (findMinDelta l).2 < l.length) := by
  cases l with
  | nil => left; rfl
  | cons b rest =>
    rw [findMinDelta]
    rcases minDeltaGo_idx b.value ((10 : ℚ) ^ 99, 0) 1 rest with h | h
    · left; exact h
    · right
      simp only [List.length_cons]
      omega

theorem mergeStep_elim {l l' : List bin} (h : mergeStep l = some l') :
    ∃ k, 1 ≤ k ∧ k < l.length ∧ l' = mergeAt k l := by
  simp only [mergeStep] at h
  rcases findMinDelta_idx l with h0 | ⟨h1, h2⟩
  · rw [if_pos h0] at h
    exact absurd h (by simp)
  · rw [if_neg (by omega)] at h
    exact ⟨(findMinDelta l).2, h1, h2, (Option.some_injective _ h).symm⟩

theorem mergeStep_length {l l' : List bin} (h : mergeStep l = some l') :
    l'.length + 1 = l.length := by
  obtain ⟨k, h1, h2, he⟩ := mergeStep_elim h
  rw [he]
  exact mergeAt_length k l h1 h2

theorem mergeStep_sum {l l' : List bin} (h : mergeStep l = some l') :
    sumCounts l' = sumCounts l := by
  obtain ⟨k, h1, h2, he⟩ := mergeStep_elim h
  rw [he]
  exact mergeAt_sum k l h1 h2

theorem mergeStep_sorted_pos {l l' : List bin} (h : mergeStep l = some l')
    (hs : SortedBins l) (hp : PosCounts l) :
    SortedBins l' ∧ PosCounts l' := by
  obtain ⟨k, h1, h2, he⟩ := mergeStep_elim h
  rw [he]
  exact ⟨mergeAt_sorted k l h1 h2 hs hp, mergeAt_pos k l h1 h2 hp⟩

theorem mergeStep_range {lo hi : ℚ} {l l' : List bin} (h : mergeStep l = some l')
    (hs : SortedBins l) (hp : PosCounts l) (hr : RangeVals lo hi l) :
    RangeVals lo hi l' := by
  obtain ⟨k, h1, h2, he⟩ := mergeStep_elim h
  rw [he]
  exact mergeAt_range lo hi k l h1 h2 hs hp hr

theorem trimLoopF_inv (P : List bin → Prop)
    (hP : ∀ l l', P l → mergeStep l = some l' → P l') (m : ℤ) :
    ∀ (fuel : ℕ) (l out : List bin), P l → trimLoopF m fuel l = some out →
      P out ∧ (out.length : ℤ) ≤ m
  | 0, l, out, hp, h => by
    rw [trimLoopF] at h
    split at h
    · cases h; exact ⟨hp, by assumption⟩
    · exact absurd h (by simp)
  | fuel + 1, l, out, hp, h => by
    rw [trimLoopF] at h
    split at h
    · cases h; exact ⟨hp, by assumption⟩
    · cases hm : mergeStep l with
      | none => rw [hm] at h; simp at h
      | some l2 =>
        rw [hm] at h
        simp only [Option.some_bind] at h
        exact trimLoopF_inv P hP m fuel l2 out (hP l l2 hp hm) h

theorem sortedBins_iff_map (l : List bin) :
    SortedBins l ↔ (l.map bin.value).Pairwise (· < ·) :=
  (List.pairwise_map).symm

theorem trim_elim {h h' : WeightedHistogram} (ht : trim h = some h') :
    ∃ bs, trimLoopF h.maxbins h.bins.length h.bins = some bs ∧
      h' = ⟨bs, h.maxbins, i64trunc (sumCounts h.bins), h.alpha⟩ := by
  simp only [trim] at ht
  cases hl : trimLoopF h.maxbins h.bins.length h.bins with
  | none => rw [hl] at ht; exact absurd ht (by simp)
  | some bs =>
    rw [hl] at ht
    refine ⟨bs, rfl, ?_⟩
    have h2 : some (⟨bs, h.maxbins, i64trunc (sumCounts h.bins), h.alpha⟩ :
        WeightedHistogram) = some h' := ht
    exact (Option.some_injective _ h2).symm

theorem add_elim {h h' : WeightedHistogram} {n : ℚ} (ha : add h n = some h') :
    ∃ bs, trimLoopF h.maxbins (preTrimBins h n).length (preTrimBins h n) = some bs ∧
      h' = ⟨bs, h.maxbins, i64trunc (sumCounts (preTrimBins h n)), h.alpha⟩ :=
  trim_elim ha

theorem preTrimBins_eq_none {h : WeightedHistogram} {n : ℚ}
    (hq : (insertLoop n h.bins).2 = none) :
    preTrimBins h n = (insertLoop n h.bins).1 := by
  simp only [preTrimBins]
  rw [hq]

theorem preTrimBins_eq_some {h : WeightedHistogram} {n : ℚ} {i : ℕ}
    (hq : (insertLoop n h.bins).2 = some i) :
    preTrimBins h n = scaleDownGo h.alpha i 0 (insertLoop n h.bins).1 := by
  simp only [preTrimBins]
  rw [hq]

theorem preTrimBins_sorted (h : WeightedHistogram) (n : ℚ)
    (hs : SortedBins h.bins) : SortedBins (preTrimBins h n) := by
  have h1 : SortedBins (insertLoop n h.bins).1 := insertLoop_sorted n h.bins hs
  cases hq : (insertLoop n h.bins).2 with
  | none => rw [preTrimBins_eq_none hq]; exact h1
  | some i =>
    rw [preTrimBins_eq_some hq, sortedBins_iff_map,
      scaleDownGo_map_value h.alpha i 0 (insertLoop n h.bins).1,
      ← sortedBins_iff_map]
    exact h1

theorem preTrimBins_pos (h : WeightedHistogram) (n : ℚ)
    (ha0 : 0 < h.alpha) (hp : PosCounts h.bins) :
    PosCounts (preTrimBins h n) := by
  cases hq : (insertLoop n h.bins).2 with
  | none => rw [preTrimBins_eq_none hq]; exact insertLoop_pos n h.bins hp
  | some i =>
    rw [preTrimBins_eq_some hq]
    exact scaleDownGo_pos ha0 i 0 _ (insertLoop_pos n h.bins hp)

theorem preTrimBins_sum_ge_one (h : WeightedHistogram) (n : ℚ)
    (ha0 : 0 < h.alpha) (hp : PosCounts h.bins) :
    1 ≤ sumCounts (preTrimBins h n) := by
  cases hq : (insertLoop n h.bins).2 with
  | none =>
    rw [preTrimBins_eq_none hq, insertLoop_sum]
    have := sumCounts_nonneg hp
    linarith
  | some i =>
    rw [preTrimBins_eq_some hq]
    obtain ⟨hlen, hcnt⟩ := insertLoop_touched n h.bins hp i hq
    have := scaleDownGo_sum_ge ha0 i 0 i (insertLoop n h.bins).1 (by omega)
      hlen (insertLoop_pos n h.bins hp)
    linarith

theorem preTrimBins_range (h : WeightedHistogram) (n lo hi : ℚ)
    (hlo : lo ≤ n) (hhi : n ≤ hi) (hr : RangeVals lo hi h.bins) :
    RangeVals lo hi (preTrimBins h n) := by
  have h1 : RangeVals lo hi (insertLoop n h.bins).1 :=
    insertLoop_range n lo hi hlo hhi h.bins hr
  cases hq : (insertLoop n h.bins).2 with
  | none => rw [preTrimBins_eq_none hq]; exact h1
  | some i =>
    rw [preTrimBins_eq_some hq]
    intro x hx
    obtain ⟨y, hy, hveq, _⟩ := scaleDownGo_mem h.alpha i 0 _ x hx
    rw [hveq]
    exact h1 y hy

theorem preTrimBins_sum_alpha_one (h : WeightedHistogram) (n : ℚ)
    (ha : h.alpha = 1) :
    sumCounts (preTrimBins h n) = sumCounts h.bins + 1 := by
  cases hq : (insertLoop n h.bins).2 with
  | none => rw [preTrimBins_eq_none hq, insertLoop_sum]
  | some i =>
    rw [preTrimBins_eq_some hq, ha, scaleDownGo_alpha_one, insertLoop_sum]

theorem one_le_i64trunc {x : ℚ} (hx : 1 ≤ x) : 1 ≤ i64trunc x := by
  rw [i64trunc, if_pos (by linarith)]
  exact Int.le_floor.mpr (by exact_mod_cast hx)

theorem add_core {h h' : WeightedHistogram} {n : ℚ}
    (ha0 : 0 < h.alpha) (hadd : add h n = some h')
    (hs : SortedBins h.bins) (hp : PosCounts h.bins) :
    SortedBins h'.bins ∧ PosCounts h'.bins ∧
    h'.maxbins = h.maxbins ∧ h'.alpha = h.alpha ∧
    (h'.bins.length : ℤ) ≤ h.maxbins ∧
    h'.total = i64trunc (sumCounts h'.bins) ∧ 1 ≤ h'.total := by
  obtain ⟨bs, hloop, hrec⟩ := add_elim hadd
  have hpre_s : SortedBins (preTrimBins h n) := preTrimBins_sorted h n hs
  have hpre_p : PosCounts (preTrimBins h n) := preTrimBins_pos h n ha0 hp
  have hpre_1 : 1 ≤ sumCounts (preTrimBins h n) := preTrimBins_sum_ge_one h n ha0 hp
  have hstep : ∀ l l',
      (SortedBins l ∧ PosCounts l ∧ sumCounts l = sumCounts (preTrimBins h n)) →
      mergeStep l = some l' →
      SortedBins l' ∧ PosCounts l' ∧ sumCounts l' = sumCounts (preTrimBins h n) := by
    intro l l' ⟨hls, hlp, hle⟩ hm
    obtain ⟨hl's, hl'p⟩ := mergeStep_sorted_pos hm hls hlp
    exact ⟨hl's, hl'p, (mergeStep_sum hm).trans hle⟩
  obtain ⟨⟨hbs_s, hbs_p, hbs_e⟩, hbs_len⟩ :=
    trimLoopF_inv _ hstep h.maxbins _ _ bs ⟨hpre_s, hpre_p, rfl⟩ hloop
  subst hrec
  refine ⟨hbs_s, hbs_p, rfl, rfl, hbs_len, ?_, ?_⟩
  · simp only
    rw [hbs_e]
  · simp only
    exact one_le_i64trunc hpre_1

theorem add_range {h h' : WeightedHistogram} {n lo hi : ℚ}
    (ha0 : 0 < h.alpha) (hadd : add h n = some h') (hlo : lo ≤ n) (hhi : n ≤ hi)
    (hs : SortedBins h.bins) (hp : PosCounts h.bins)
    (hr : RangeVals lo hi h.bins) : RangeVals lo hi h'.bins := by
  obtain ⟨bs, hloop, hrec⟩ := add_elim hadd
  have hpre_s : SortedBins (preTrimBins h n) := preTrimBins_sorted h n hs
  have hpre_p : PosCounts (preTrimBins h n) := preTrimBins_pos h n ha0 hp
  have hpre_r : RangeVals lo hi (preTrimBins h n) :=
    preTrimBins_range h n lo hi hlo hhi hr
  have hstep : ∀ l l',
      (SortedBins l ∧ PosCounts l ∧ RangeVals lo hi l) →
      mergeStep l = some l' →
      SortedBins l' ∧ PosCounts l' ∧ RangeVals lo hi l' := by
    intro l l' ⟨hls, hlp, hlr⟩ hm
    obtain ⟨hl's, hl'p⟩ := mergeStep_sorted_pos hm hls hlp
    exact ⟨hl's, hl'p, mergeStep_range hm hls hlp hlr⟩
  obtain ⟨⟨_, _, hbs_r⟩, _⟩ :=
    trimLoopF_inv _ hstep h.maxbins _ _ bs ⟨hpre_s, hpre_p, hpre_r⟩ hloop
  subst hrec
  exact hbs_r

theorem addList_elim :
    ∀ (ns : List ℚ) (h out : WeightedHistogram), addList h ns = some out →
      out = h ∨ ∃ h2 n, add h2 n = some out
  | [], h, out, he => by
    left
    have h2 : some h = some out := he
    exact (Option.some_injective _ h2).symm
  | n :: rest, h, out, he => by
    simp only [addList] at he
    cases hq : add h n with
    | none => rw [hq] at he; simp at he
    | some h1 =>
      rw [hq] at he
      simp only [Option.some_bind] at he
      rcases addList_elim rest h1 out he with h2 | h2
      · right; exact ⟨h, n, h2 ▸ hq⟩
      · right; exact h2

theorem addList_inv_mem (P : WeightedHistogram → Prop) :
    ∀ (ns : List ℚ) (h out : WeightedHistogram),
      (∀ h2 n h3, n ∈ ns → P h2 → add h2 n = some h3 → P h3) →
      P h → addList h ns = some out → P out
  | [], h, out, _, hp, he => by
    have h2 : some h = some out := he
    exact (Option.some_injective _ h2) ▸ hp
  | n :: rest, h, out, hstep, hp, he => by
    simp only [addList] at he
    cases hq : add h n with
    | none => rw [hq] at he; simp at he
    | some h1 =>
      rw [hq] at he
      simp only [Option.some_bind] at he
      exact addList_inv_mem P rest h1 out
        (fun h2 m h3 hm => hstep h2 m h3 (List.mem_cons_of_mem _ hm))
        (hstep h n h1 (by simp) hp hq) he

theorem foldl_min_le_init : ∀ (xs : List ℚ) (x0 : ℚ), xs.foldl min x0 ≤ x0
  | [], _ => le_refl _
  | x :: xs, x0 =>
    le_trans (foldl_min_le_init xs (min x0 x)) (min_le_left _ _)

theorem foldl_min_le_mem :
    ∀ (xs : List ℚ) (x0 x : ℚ), x ∈ xs → xs.foldl min x0 ≤ x
  | x' :: xs, x0, x, hx => by
    rcases List.mem_cons.mp hx with hx | hx
    · subst hx
      exact le_trans (foldl_min_le_init xs (min x0 x)) (min_le_right _ _)
    · exact foldl_min_le_mem xs (min x0 x') x hx

theorem init_le_foldl_max : ∀ (xs : List ℚ) (x0 : ℚ), x0 ≤ xs.foldl max x0
  | [], _ => le_refl _
  | x :: xs, x0 =>
    le_trans (le_max_left _ _) (init_le_foldl_max xs (max x0 x))

theorem mem_le_foldl_max :
    ∀ (xs : List ℚ) (x0 x : ℚ), x ∈ xs → x ≤ xs.foldl max x0
  | x' :: xs, x0, x, hx => by
    rcases List.mem_cons.mp hx with hx | hx
    · subst hx
      exact le_trans (le_max_right _ _) (init_le_foldl_max xs (max x0 x))
    · exact mem_le_foldl_max xs (max x0 x') x hx

theorem listMin_le {ns : List ℚ} : ∀ x ∈ ns, listMin ns ≤ x := by
  cases ns with
  | nil => intro x hx; exact absurd hx (by simp)
  | cons y ys =>
    intro x hx
    rcases List.mem_cons.mp hx with hx | hx
    · subst hx; exact foldl_min_le_init ys x
    · exact foldl_min_le_mem ys y x hx

theorem le_listMax {ns : List ℚ} : ∀ x ∈ ns, x ≤ listMax ns := by
  cases ns with
  | nil => intro x hx; exact absurd hx (by simp)
  | cons y ys =>
    intro x hx
    rcases List.mem_cons.mp hx with hx | hx
    · subst hx; exact init_le_foldl_max ys x
    · exact mem_le_foldl_max ys y x hx

theorem reach_inv {m : ℤ} {a : ℚ} (ha0 : 0 < a) {ns : List ℚ}
    {h : WeightedHistogram}
    (hadd : addList (newWeightedHistogram m a) ns = some h) :
    h.alpha = a ∧ h.maxbins = m ∧ SortedBins h.bins ∧ PosCounts h.bins ∧
    RangeVals (listMin ns) (listMax ns) h.bins ∧
    h.total = i64trunc (sumCounts h.bins) ∧
    ((h.bins = [] ∧ h.total = 0) ∨ 1 ≤ h.total) := by
  refine addList_inv_mem
    (fun g => g.alpha = a ∧ g.maxbins = m ∧ SortedBins g.bins ∧
      PosCounts g.bins ∧ RangeVals (listMin ns) (listMax ns) g.bins ∧
      g.total = i64trunc (sumCounts g.bins) ∧
      ((g.bins = [] ∧ g.total = 0) ∨ 1 ≤ g.total))
    ns (newWeightedHistogram m a) h ?_ ?_ hadd
  · intro h2 n h3 hn hP hq
    obtain ⟨halpha, hmax, hs, hp, hr, _, _⟩ := hP
    have ha0' : 0 < h2.alpha := by rw [halpha]; exact ha0
    obtain ⟨h3s, h3p, h3max, h3alpha, _, h3tot, h3ge1⟩ := add_core ha0' hq hs hp
    refine ⟨h3alpha.trans halpha, h3max.trans hmax, h3s, h3p, ?_, h3tot,
      Or.inr h3ge1⟩
    exact add_range ha0' hq (listMin_le n hn) (le_listMax n hn) hs hp hr
  · refine ⟨rfl, rfl, List.Pairwise.nil, ?_, ?_, ?_, Or.inl ⟨rfl, rfl⟩⟩
    · intro x hx; simp [newWeightedHistogram] at hx
    · intro x hx; simp [newWeightedHistogram] at hx
    · simp [newWeightedHistogram, i64trunc, sumCounts]

theorem add_sum_alpha_one {h h' : WeightedHistogram} {n : ℚ}
    (ha : h.alpha = 1) (hadd : add h n = some h') :
    sumCounts h'.bins = sumCounts h.bins + 1 ∧ h'.alpha = 1 := by
  obtain ⟨bs, hloop, hrec⟩ := add_elim hadd
  have hstep : ∀ l l', sumCounts l = sumCounts (preTrimBins h n) →
      mergeStep l = some l' → sumCounts l' = sumCounts (preTrimBins h n) := by
    intro l l' hle hm
    exact (mergeStep_sum hm).trans hle
  obtain ⟨hsum, _⟩ := trimLoopF_inv _ hstep h.maxbins _ _ bs rfl hloop
  subst hrec
  constructor
  · simp only
    rw [hsum, preTrimBins_sum_alpha_one h n ha]
  · simp only
    exact ha

theorem addList_count_alpha_one :
    ∀ (ns : List ℚ) (h out : WeightedHistogram), h.alpha = 1 →
      addList h ns = some out →
      sumCounts out.bins = sumCounts h.bins + ns.length
  | [], h, out, _, he => by
    have h2 : some h = some out := he
    have h3 := Option.some_injective _ h2
    rw [← h3]
    simp
  | n :: rest, h, out, ha, he => by
    simp only [addList] at he
    cases hq : add h n with
    | none => rw [hq] at he; simp at he
    | some h1 =>
      rw [hq] at he
      simp only [Option.some_bind] at he
      obtain ⟨hsum1, halpha1⟩ := add_sum_alpha_one ha hq
      have ih := addList_count_alpha_one rest h1 out halpha1 he
      rw [ih, hsum1]
      simp only [List.length_cons]
      push_cast
      ring

theorem add_total_trunc {h h' : WeightedHistogram} {n : ℚ}
    (hadd : add h n = some h') :
    h'.total = i64trunc (sumCounts h'.bins) := by
  obtain ⟨bs, hloop, hrec⟩ := add_elim hadd
  have hstep : ∀ l l', sumCounts l = sumCounts (preTrimBins h n) →
      mergeStep l = some l' → sumCounts l' = sumCounts (preTrimBins h n) := by
    intro l l' hle hm
    exact (mergeStep_sum hm).trans hle
  obtain ⟨hsum, _⟩ := trimLoopF_inv _ hstep h.maxbins _ _ bs rfl hloop
  subst hrec
  simp only
  rw [hsum]

theorem quantLoop_zero_cons {b : bin} {rest : List bin} (hb : 0 < b.count) :
    quantLoop 0 (b :: rest) = b.value := by
  simp only [quantLoop]
  rw [if_pos (by linarith)]

theorem quantLoop_mem :
    ∀ (l : List bin) (c : ℚ), l ≠ [] → c ≤ sumCounts l →
      ∃ b ∈ l, quantLoop c l = b.value
  | [], _, hne, _ => absurd rfl hne
  | b :: rest, c, _, hc => by
    simp only [quantLoop]
    by_cases h0 : c - b.count ≤ 0
    · rw [if_pos h0]
      exact ⟨b, by simp, rfl⟩
    · rw [if_neg h0]
      cases hr : rest with
      | nil =>
        subst hr
        rw [sumCounts_cons, sumCounts_nil] at hc
        exact absurd (by linarith : c - b.count ≤ 0) h0
      | cons b2 rest2 =>
        rw [sumCounts_cons] at hc
        obtain ⟨y, hy, hval⟩ := quantLoop_mem rest (c - b.count)
          (by rw [hr]; simp) (by linarith)
        exact ⟨y, List.mem_cons_of_mem _ (hr ▸ hy), by rw [← hr, hval]⟩

theorem insertLoop_some_lt (n : ℚ) :
    ∀ (l : List bin) (i : ℕ), (insertLoop n l).2 = some i →
      i < (insertLoop n l).1.length
  | [], i, h => by simp [insertLoop] at h
  | b :: rest, i, h => by
    simp only [insertLoop] at h ⊢
    rcases eq_or_ne b.value n with hv | hv
    · rw [if_pos hv] at h ⊢
      have hi : i = 0 := by simpa using h.symm
      subst hi
      simp
    · rcases lt_or_gt_of_ne hv with hlt | hgt
      · have hn : ¬ n < b.value := not_lt.mpr (le_of_lt hlt)
        rw [if_neg hv, if_neg hn] at h ⊢
        cases hp : (insertLoop n rest).2 with
        | none => rw [hp] at h; simp at h
        | some j =>
          rw [hp] at h
          have hjl := insertLoop_some_lt n rest j hp
          have hij : i = j + 1 := by
            have := h.symm
            simpa using this
          subst hij
          simpa using Nat.succ_lt_succ hjl
      · rw [if_neg hv, if_pos hgt] at h ⊢
        have hi : i = 0 := by simpa using h.symm
        subst hi
        simp

theorem add_len_maxbins {h h' : WeightedHistogram} {n : ℚ}
    (hadd : add h n = some h') :
    h'.maxbins = h.maxbins ∧ (h'.bins.length : ℤ) ≤ h.maxbins := by
  obtain ⟨bs, hloop, hrec⟩ := add_elim hadd
  obtain ⟨_, hlen⟩ := trimLoopF_inv (fun _ => True) (fun _ _ _ _ => trivial)
    h.maxbins _ _ bs trivial hloop
  subst hrec
  exact ⟨rfl, hlen⟩

theorem i64trunc_le {x : ℚ} (hx : 0 ≤ x) : (i64trunc x : ℚ) ≤ x := by
  rw [i64trunc, if_pos hx]
  exact Int.floor_le x

theorem partialCount_zero (l : List bin) : partialCount l 0 = 0 := rfl

theorem partialCount_cons (b : bin) (rest : List bin) (j : ℕ) :
    partialCount (b :: rest) (j + 1) = b.count + partialCount rest j := by
  simp [partialCount, sumCounts, List.take_succ_cons]

theorem quantLoop_spec : ∀ (l : List bin) (t : ℚ), QuantileRet t l (quantLoop t l)
  | [], t => Or.inr ⟨fun i hi => absurd hi (by simp), rfl⟩
  | b :: rest, t => by
    simp only [quantLoop]
    by_cases h0 : t - b.count ≤ 0
    · rw [if_pos h0]
      left
      refine ⟨0, by simp, fun j hj => absurd hj (by omega), ?_, by simp⟩
      rw [partialCount_cons, partialCount_zero]
      linarith
    · rw [if_neg h0]
      have h0' : 0 < t - b.count := by linarith [not_le.mp h0]
      rcases quantLoop_spec rest (t - b.count) with
        ⟨i, hi, hprev, hcur, hval⟩ | ⟨hall, hval⟩
      · left
        refine ⟨i + 1, by simpa using Nat.succ_lt_succ hi, ?_, ?_, ?_⟩
        · intro j hj
          cases j with
          | zero =>
            rw [partialCount_cons, partialCount_zero]
            linarith
          | succ j2 =>
            rw [partialCount_cons]
            have := hprev j2 (by omega)
            linarith
        · rw [partialCount_cons]
          linarith
        · rw [List.getD_cons_succ]
          exact hval
      · right
        refine ⟨?_, hval⟩
        intro i hi
        cases i with
        | zero =>
          rw [partialCount_cons, partialCount_zero]
          linarith
        | succ j2 =>
          rw [partialCount_cons]
          have := hall j2 (by simpa using Nat.lt_of_succ_lt_succ hi)
          linarith

theorem ewma_zero (c a : ℚ) : ewma c 0 a = c * a := by
  rw [ewma]; ring

/-- C1 (amended): in the exact-match and insert-before branches of `Add`
(`insertLoop` reports a touched index `i`), every bin other than index `i`
has its count multiplied by `alpha` and bin `i` is untouched; in the append
branch (every stored value is below `n`, or the store is empty) no decay at
all is applied — the bins reaching `trim` are the old bins plus the new
unit bin, counts unchanged. -/
theorem add_decay_scope (h : WeightedHistogram) (n : ℚ) :
    (∀ i, (insertLoop n h.bins).2 = some i →
      (∀ j, j < (insertLoop n h.bins).1.length → j ≠ i →
        (preTrimBins h n).getD j bin0 =
          ⟨((insertLoop n h.bins).1.getD j bin0).value,
            ((insertLoop n h.bins).1.getD j bin0).count * h.alpha⟩) ∧
      (preTrimBins h n).getD i bin0 = (insertLoop n h.bins).1.getD i bin0) ∧
    ((insertLoop n h.bins).2 = none →
      (∀ b ∈ h.bins, b.value < n) ∧ preTrimBins h n = h.bins ++ [⟨n, 1⟩]) := by
  constructor
  · intro i hi
    constructor
    · intro j hj hne
      rw [preTrimBins_eq_some hi,
        scaleDownGo_getD h.alpha i 0 j (insertLoop n h.bins).1 hj,
        if_neg (by omega), ewma_zero]
    · rw [preTrimBins_eq_some hi,
        scaleDownGo_getD h.alpha i 0 i (insertLoop n h.bins).1
          (insertLoop_some_lt n h.bins i hi),
        if_pos (by omega)]
  · intro hnone
    exact ⟨(insertLoop_none_iff n h.bins).mp hnone,
      by rw [preTrimBins_eq_none hnone, insertLoop_none_eq n h.bins hnone]⟩

theorem add_decay_scope_witness :
    (preTrimBins ⟨[⟨1, 1⟩, ⟨3, 1⟩], 5, 2, 1/2⟩ 3).getD 0 bin0 = ⟨1, 1 * (1/2)⟩ ∧
    (preTrimBins ⟨[⟨1, 1⟩, ⟨3, 1⟩], 5, 2, 1/2⟩ 3).getD 1 bin0 = ⟨3, 2⟩ ∧
    preTrimBins ⟨[⟨1, 1⟩, ⟨3, 1⟩], 5, 2, 1/2⟩ 5 = [⟨1, 1⟩, ⟨3, 1⟩] ++ [⟨5, 1⟩] := by
  refine ⟨?_, ?_, ?_⟩
  · have h1 := ((add_decay_scope ⟨[⟨1, 1⟩, ⟨3, 1⟩], 5, 2, 1/2⟩ 3).1 1
      (by norm_num [insertLoop])).1 0 (by norm_num [insertLoop]) (by norm_num)
    rw [h1]
    norm_num [insertLoop, List.getD_cons_zero]
  · have h2 := ((add_decay_scope ⟨[⟨1, 1⟩, ⟨3, 1⟩], 5, 2, 1/2⟩ 3).1 1
      (by norm_num [insertLoop])).2
    rw [h2]
    norm_num [insertLoop, List.getD_cons_zero, List.getD_cons_succ]
  · exact ((add_decay_scope ⟨[⟨1, 1⟩, ⟨3, 1⟩], 5, 2, 1/2⟩ 5).2
      (by norm_num [insertLoop])).2

/-- C1 counterexample: with `alpha = 1/2`, `Add 1` then `Add 2` lands in the
append branch; afterwards the untouched bin for value 1 still has count 1,
not the decayed `1 * (1/2)` the claim requires for every branch. -/
theorem append_branch_no_decay_cex :
    addList (newWeightedHistogram 5 (1/2)) [1, 2] =
      some ⟨[⟨1, 1⟩, ⟨2, 1⟩], 5, 2, 1/2⟩ ∧
    ¬ ((1 : ℚ) = 1 * (1/2)) := by
  constructor
  · norm_num [addList, add, trim, preTrimBins, insertLoop, trimLoopF, mergeStep,
      findMinDelta, minDeltaGo, scaleDownGo, sumCounts, i64trunc,
      newWeightedHistogram, bin0, ewma, mergeAt, mergePair, Option.bind]
  · norm_num

/-- C2: for every histogram built with `maxbins = m ≥ 1` and every sequence
of `Add` calls that returns, `BinsCount ≤ m` afterwards. -/
theorem binsCount_le_maxbins (m : ℤ) (a : ℚ) (ns : List ℚ)
    (h : WeightedHistogram) (hm : 1 ≤ m)
    (hadd : addList (newWeightedHistogram m a) ns = some h) :
    BinsCount h ≤ m := by
  have hstep : ∀ h2 n h3, n ∈ ns →
      (h2.maxbins = m ∧ (h2.bins.length : ℤ) ≤ m) → add h2 n = some h3 →
      (h3.maxbins = m ∧ (h3.bins.length : ℤ) ≤ m) := by
    intro h2 n h3 _ hP hq
    obtain ⟨hmax, _⟩ := hP
    obtain ⟨hq1, hq2⟩ := add_len_maxbins hq
    exact ⟨hq1.trans hmax, hmax ▸ hq2⟩
  have hbase : (newWeightedHistogram m a).maxbins = m ∧
      (((newWeightedHistogram m a).bins.length : ℤ) ≤ m) := by
    refine ⟨rfl, ?_⟩
    simp only [newWeightedHistogram, List.length_nil, Nat.cast_zero]
    omega
  have hout := addList_inv_mem _ ns (newWeightedHistogram m a) h hstep hbase hadd
  simpa [BinsCount] using hout.2

theorem binsCount_le_maxbins_witness :
    BinsCount (⟨[⟨3/2, 2⟩, ⟨3, 1⟩], 2, 3, 1⟩ : WeightedHistogram) ≤ 2 :=
  binsCount_le_maxbins 2 1 [1, 2, 3] ⟨[⟨3/2, 2⟩, ⟨3, 1⟩], 2, 3, 1⟩
    (by decide)
    (by norm_num [addList, add, trim, preTrimBins, insertLoop, trimLoopF,
      mergeStep, findMinDelta, minDeltaGo, scaleDownGo, sumCounts, i64trunc,
      newWeightedHistogram, bin0, ewma, mergeAt, mergePair, Option.bind])

/-- C3: for every histogram built with `maxbins ≥ 1` and a decay factor in
the spec's range `(0, 1]`, the bin values are strictly increasing after any
sequence of `Add` calls that returns, so no two bins share a value. -/
theorem bins_strictly_sorted (m : ℤ) (a : ℚ) (ns : List ℚ)
    (h : WeightedHistogram) (hm : 1 ≤ m) (ha0 : 0 < a) (ha1 : a ≤ 1)
    (hadd : addList (newWeightedHistogram m a) ns = some h) :
    SortedBins h.bins ∧ (h.bins.map bin.value).Nodup := by
  obtain ⟨_, _, hs, _, _, _, _⟩ := reach_inv ha0 hadd
  refine ⟨hs, ?_⟩
  have hmap := (sortedBins_iff_map h.bins).mp hs
  exact List.Pairwise.imp (fun hab => ne_of_lt hab) hmap

theorem bins_strictly_sorted_witness :
    SortedBins (⟨[⟨3/2, 2⟩, ⟨3, 1⟩], 2, 3, 1/2⟩ : WeightedHistogram).bins ∧
    ((⟨[⟨3/2, 2⟩, ⟨3, 1⟩], 2, 3, 1/2⟩ : WeightedHistogram).bins.map
      bin.value).Nodup :=
  bins_strictly_sorted 2 (1/2) [1, 2, 3] ⟨[⟨3/2, 2⟩, ⟨3, 1⟩], 2, 3, 1/2⟩
    (by decide) (by norm_num) (by norm_num)
    (by norm_num [addList, add, trim, preTrimBins, insertLoop, trimLoopF,
      mergeStep, findMinDelta, minDeltaGo, scaleDownGo, sumCounts, i64trunc,
      newWeightedHistogram, bin0, ewma, mergeAt, mergePair, Option.bind])

/-- C4: evaluation at the failing input.  With `maxbins = 1`, adding `0`
and then `1e100` makes the only gap exceed the `1e99` sentinel, so the
closest-pair scan never updates `minDeltaIndex`; the source then reads
`bins[-1]` — an index-out-of-range runtime error (`none` here) — instead of
merging the minimal-gap pair as the claim describes. -/
theorem trim_mingap_sentinel_eval :
    addList (newWeightedHistogram 1 1) [0, 10 ^ 100] = none := by
  norm_num [addList, add, trim, preTrimBins, insertLoop, trimLoopF, mergeStep,
    findMinDelta, minDeltaGo, scaleDownGo, sumCounts, i64trunc,
    newWeightedHistogram, bin0, ewma, mergeAt, mergePair, Option.bind]

/-- C5 (amended): after every `Add` that returns, the cached `total` is the
sum of the current bin counts truncated toward zero (`int64` conversion),
recomputed from the bins — not rounded to the nearest integer. -/
theorem add_total_truncated (h h' : WeightedHistogram) (n : ℚ)
    (hadd : add h n = some h') :
    h'.total = i64trunc (sumCounts h'.bins) :=
  add_total_trunc hadd

theorem add_total_truncated_witness :
    (⟨[⟨1, 3/4⟩, ⟨2, 2⟩], 5, 2, 3/4⟩ : WeightedHistogram).total =
      i64trunc (sumCounts
        (⟨[⟨1, 3/4⟩, ⟨2, 2⟩], 5, 2, 3/4⟩ : WeightedHistogram).bins) :=
  add_total_truncated ⟨[⟨1, 1⟩, ⟨2, 1⟩], 5, 2, 3/4⟩
    ⟨[⟨1, 3/4⟩, ⟨2, 2⟩], 5, 2, 3/4⟩ 2
    (by norm_num [add, trim, preTrimBins, insertLoop, trimLoopF, mergeStep,
      findMinDelta, minDeltaGo, scaleDownGo, sumCounts, i64trunc, bin0, ewma,
      mergeAt, mergePair, Option.bind])

/-- C5 counterexample: with `alpha = 3/4`, adding `1, 2, 2` leaves bin
counts `3/4` and `2` (sum `11/4`); the code stores `total = 2` (truncation)
while rounding to the nearest integer would give `3`. -/
theorem total_truncation_cex :
    addList (newWeightedHistogram 5 (3/4)) [1, 2, 2] =
      some ⟨[⟨1, 3/4⟩, ⟨2, 2⟩], 5, 2, 3/4⟩ ∧
    sumCounts [⟨1, (3/4 : ℚ)⟩, ⟨2, 2⟩] = 11/4 ∧
    round ((11 : ℚ)/4) = 3 ∧ ¬ ((2 : ℤ) = round ((11 : ℚ)/4)) := by
  refine ⟨?_, ?_, ?_, ?_⟩
  · norm_num [addList, add, trim, preTrimBins, insertLoop, trimLoopF,
      mergeStep, findMinDelta, minDeltaGo, scaleDownGo, sumCounts, i64trunc,
      newWeightedHistogram, bin0, ewma, mergeAt, mergePair, Option.bind]
  · norm_num [sumCounts]
  · norm_num [round_eq]
  · norm_num [round_eq]

/-- C6: with `alpha = 1` (no decay) and `maxbins ≥ 1`, after `k` `Add`
calls that return, `Count` equals `k`: each insertion adds unit mass,
`scaleDown` with `alpha = 1` is the identity, and merges conserve the count
sum. -/
theorem count_equals_adds (m : ℤ) (ns : List ℚ) (h : WeightedHistogram)
    (hm : 1 ≤ m) (hadd : addList (newWeightedHistogram m 1) ns = some h) :
    Count h = ns.length := by
  obtain ⟨_, _, _, _, _, htot, _⟩ := reach_inv (by norm_num) hadd
  have hsum := addList_count_alpha_one ns (newWeightedHistogram m 1) h rfl hadd
  have h0 : sumCounts (newWeightedHistogram m 1).bins = 0 := rfl
  rw [h0] at hsum
  show h.total = (ns.length : ℤ)
  rw [htot, hsum, zero_add, i64trunc, if_pos (by positivity)]
  exact_mod_cast Int.floor_natCast ns.length

theorem count_equals_adds_witness :
    Count (⟨[⟨3/2, 2⟩, ⟨3, 1⟩], 2, 3, 1⟩ : WeightedHistogram) =
      (([1, 2, 3] : List ℚ).length : ℤ) :=
  count_equals_adds 2 [1, 2, 3] ⟨[⟨3/2, 2⟩, ⟨3, 1⟩], 2, 3, 1⟩
    (by decide)
    (by norm_num [addList, add, trim, preTrimBins, insertLoop, trimLoopF,
      mergeStep, findMinDelta, minDeltaGo, scaleDownGo, sumCounts, i64trunc,
      newWeightedHistogram, bin0, ewma, mergeAt, mergePair, Option.bind])

/-- C7: `Quantile q` scans the bins in ascending order subtracting each
count from the running target `q * total`, returns the value of the first
bin at which the running target is ≤ 0, and `-1` when no bin satisfies
that. -/
theorem quantile_scan_characterization (h : WeightedHistogram) (q : ℚ) :
    QuantileRet (q * (h.total : ℚ)) h.bins (Quantile h q) :=
  quantLoop_spec h.bins (q * (h.total : ℚ))

theorem quantile_scan_witness :
    QuantileRet (1 * (((2 : ℤ) : ℚ))) [⟨15/2, 2⟩]
      (Quantile ⟨[⟨15/2, 2⟩], 1, 2, 1⟩ 1) :=
  quantile_scan_characterization ⟨[⟨15/2, 2⟩], 1, 2, 1⟩ 1

/-- C8 (amended): on a histogram with `maxbins ≥ 1` and decay factor in
`(0, 1]`, after a sequence of `Add` calls that returns: if `total = 0`
(only possible for the empty sequence) both `Quantile 0` and `Quantile 1`
return `-1`; otherwise both return values lying between the minimum and
maximum observed sample — but not necessarily ≤ the minimum, resp. ≥ the
maximum, as merging replaces extreme bins by interior averages. -/
theorem quantile_boundary (m : ℤ) (a : ℚ) (ns : List ℚ)
    (h : WeightedHistogram) (hm : 1 ≤ m) (ha0 : 0 < a) (ha1 : a ≤ 1)
    (hadd : addList (newWeightedHistogram m a) ns = some h) :
    (h.total = 0 → Quantile h 0 = -1 ∧ Quantile h 1 = -1) ∧
    (h.total ≠ 0 →
      (listMin ns ≤ Quantile h 0 ∧ Quantile h 0 ≤ listMax ns) ∧
      (listMin ns ≤ Quantile h 1 ∧ Quantile h 1 ≤ listMax ns)) := by
  obtain ⟨_, _, hs, hp, hr, htot, hcase⟩ := reach_inv ha0 hadd
  constructor
  · intro h0
    rcases hcase with ⟨hbe, _⟩ | h1
    · constructor <;> (rw [Quantile, hbe]; rfl)
    · exact absurd h0 (by omega)
  · intro h0
    rcases hcase with ⟨_, hz⟩ | h1
    · exact absurd hz h0
    · have hbne : h.bins ≠ [] := by
        intro hbe
        rw [hbe] at htot
        simp [sumCounts, i64trunc] at htot
        omega
      obtain ⟨b, rest, hbeq⟩ := List.exists_cons_of_ne_nil hbne
      have hbmem : b ∈ h.bins := hbeq ▸ List.mem_cons_self b rest
      have hq0 : Quantile h 0 = b.value := by
        rw [Quantile, zero_mul, hbeq]
        exact quantLoop_zero_cons (hp b hbmem)
      have hb0 := hr b hbmem
      have hsle : ((h.total : ℤ) : ℚ) ≤ sumCounts h.bins := by
        rw [htot]
        exact i64trunc_le (sumCounts_nonneg hp)
      obtain ⟨y, hy, hyv⟩ := quantLoop_mem h.bins ((h.total : ℚ)) hbne hsle
      have hq1 : Quantile h 1 = y.value := by
        rw [Quantile, one_mul]
        exact hyv
      have hby := hr y hy
      constructor
      · exact ⟨by rw [hq0]; exact hb0.1, by rw [hq0]; exact hb0.2⟩
      · exact ⟨by rw [hq1]; exact hby.1, by rw [hq1]; exact hby.2⟩

theorem quantile_boundary_witness :
    listMin [1, 2, 3] ≤ Quantile ⟨[⟨3/2, 2⟩, ⟨3, 1⟩], 2, 3, 1/2⟩ 0 ∧
    Quantile ⟨[⟨3/2, 2⟩, ⟨3, 1⟩], 2, 3, 1/2⟩ 1 ≤ listMax [1, 2, 3] := by
  have H := quantile_boundary 2 (1/2) [1, 2, 3]
    ⟨[⟨3/2, 2⟩, ⟨3, 1⟩], 2, 3, 1/2⟩ (by decide) (by norm_num) (by norm_num)
    (by norm_num [addList, add, trim, preTrimBins, insertLoop, trimLoopF,
      mergeStep, findMinDelta, minDeltaGo, scaleDownGo, sumCounts, i64trunc,
      newWeightedHistogram, bin0, ewma, mergeAt, mergePair, Option.bind])
  exact ⟨((H.2 (by decide)).1).1, ((H.2 (by decide)).2).2⟩

/-- C8 counterexample: `maxbins = 1`, add `5` then `10`: the two bins merge
into one at `15/2`, so `Quantile 0 = 15/2 > 5` (not ≤ the minimum observed)
and `Quantile 1 = 15/2 < 10` (not ≥ the maximum observed). -/
theorem quantile_boundary_cex :
    addList (newWeightedHistogram 1 1) [5, 10] =
      some ⟨[⟨15/2, 2⟩], 1, 2, 1⟩ ∧
    Quantile ⟨[⟨15/2, 2⟩], 1, 2, 1⟩ 0 = 15/2 ∧
    Quantile ⟨[⟨15/2, 2⟩], 1, 2, 1⟩ 1 = 15/2 ∧
    ¬ ((15 : ℚ)/2 ≤ 5) ∧ ¬ ((10 : ℚ) ≤ 15/2) := by
  refine ⟨?_, ?_, ?_, ?_, ?_⟩
  · norm_num [addList, add, trim, preTrimBins, insertLoop, trimLoopF,
      mergeStep, findMinDelta, minDeltaGo, scaleDownGo, sumCounts, i64trunc,
      newWeightedHistogram, bin0, ewma, mergeAt, mergePair, Option.bind]
  · norm_num [Quantile, quantLoop]
  · norm_num [Quantile, quantLoop]
  · norm_num
  · norm_num

/-- C9: `UnmarshalJSON` is atomic: when the decode of the state record
fails it returns a non-nil error and leaves every receiver field exactly as
it was; when the decode succeeds it fully replaces all four fields from the
decoded state. -/
theorem unmarshal_atomic (h : WeightedHistogram)
    (decoded : Option histogramState) :
    (decoded = none → unmarshalJSON h decoded = (true, h)) ∧
    (∀ hs, decoded = some hs → unmarshalJSON h decoded =
      (false, ⟨hs.Bins.map (fun v => ⟨v.Value, v.Count⟩), hs.MaxBins,
        hs.Total, hs.Alpha⟩)) := by
  constructor
  · intro he
    rw [he]
    rfl
  · intro hs he
    rw [he]
    rfl

theorem unmarshal_atomic_witness :
    unmarshalJSON ⟨[⟨1, 2⟩], 3, 2, 1⟩ none = (true, ⟨[⟨1, 2⟩], 3, 2, 1⟩) ∧
    unmarshalJSON ⟨[⟨1, 2⟩], 3, 2, 1⟩ (some ⟨[⟨5, 6⟩], 1, 6, 1/2⟩) =
      (false, ⟨[⟨5, 6⟩], 1, 6, 1/2⟩) := by
  constructor
  · exact (unmarshal_atomic ⟨[⟨1, 2⟩], 3, 2, 1⟩ none).1 rfl
  · have h2 := (unmarshal_atomic ⟨[⟨1, 2⟩], 3, 2, 1⟩
      (some ⟨[⟨5, 6⟩], 1, 6, 1/2⟩)).2 ⟨[⟨5, 6⟩], 1, 6, 1/2⟩ rfl
    simpa using h2

/-- C10: every statistics query — Quantile, CDF, Mean, Variance, Modes,
Count, BinsCount, Bins — leaves the whole histogram state unchanged; in the
source, `Modes` sorts the copy `tmp` (appended onto a fresh empty slice),
never the stored bins, and no query assigns to any receiver field. -/
theorem queries_pure (h : WeightedHistogram) (q x : ℚ) (n i : ℤ) :
    (QuantileS h q).2 = h ∧ (CDFS h x).2 = h ∧ (MeanS h).2 = h ∧
    (VarianceS h).2 = h ∧ (ModesS h n).2 = h ∧ (CountS h).2 = h ∧
    (BinsCountS h).2 = h ∧ (BinsS h i).2 = h :=
  ⟨rfl, rfl, rfl, rfl, rfl, rfl, rfl, rfl⟩

end Gohistogram
